import Mathlib

/-!
Verification of `django-transortable` (package `transortable`): a shallow
embedding in Lean 4 of the admin glue code in `transortable/admin.py` and
`transortable/models.py`, together with theorems settling the behavioural
claims about it.

The embedding models Django objects as explicit data: a model table is a
list of records, a Python dict is an association list with Python's
`dict.update` / key-replacement semantics, an HTTP view is a function from
a request and a database state to a new state and an outcome.  Python's
falsy test on an integer (`x or fallback`) is modelled as a test against
zero.
-/

/-! ## Sorting view (`SortableAdmin.do_sorting_view`) -/

/-- A row of the sortable model's table: a primary key (Django sends and
compares them as strings in this view) and the integer `order` field. -/
structure SortableObject where
  pk : String
  order : Int
deriving DecidableEq, Repr

/-- The table of the model class resolved from the content-type id. -/
abbrev SortableDb := List SortableObject

/-- `obj.save()`: write the new `order` value of the row with this pk. -/
def dbSave (db : SortableDb) (pk : String) (ord : Int) : SortableDb :=
  db.map (fun o => if o.pk == pk then { o with order := ord } else o)

/-- Read the `order` field of the row with this pk, `none` if absent. -/
def dbOrder (db : SortableDb) (pk : String) : Option Int :=
  (db.find? (fun o => o.pk == pk)).map (·.order)

/-- Python's `x or fallback` on an integer value: `0` is falsy. -/
def pyOrInt (x fallback : Int) : Int :=
  if x = 0 then fallback else x

/-- Helper for `pySplitComma`: accumulate the current chunk (reversed). -/
def splitCommaAux (acc : List Char) : List Char → List String
  | [] => [String.mk acc.reverse]
  | c :: rest =>
    if c = ',' then String.mk acc.reverse :: splitCommaAux [] rest
    else splitCommaAux (c :: acc) rest

/-- Python's `s.split(',')`: the empty string yields `[""]`, and empty
chunks between adjacent commas are kept. -/
def pySplitComma (s : String) : List String :=
  splitCommaAux [] s.data

/-- `max(...)` over a nonempty list of integers (`[]` never reaches here in
the claims; the view raises an uncaught `ValueError` on an empty sequence,
which the embedding reports separately). -/
def maxOf : List Int → Int
  | [] => 0
  | x :: xs => xs.foldl max x

/-- `min(...)` over a nonempty list of integers. -/
def minOf : List Int → Int
  | [] => 0
  | x :: xs => xs.foldl min x

/-- The reindexing loop of `do_sorting_view`: for each posted pk, look it
up in `objects_dict` (whose key set `dictPks` was fixed before the loop);
`setattr` on a missing key is `setattr(None, ...)`, an `AttributeError`
(the loop stops, flag `false`); otherwise assign `order := start` and save,
then continue with `start + step`. -/
def sortLoop (dictPks : List String) (indexes : List String)
    (db : SortableDb) (start step : Int) : SortableDb × Bool :=
  match indexes with
  | [] => (db, true)
  | i :: rest =>
    if dictPks.contains i then
      sortLoop dictPks rest (dbSave db i start) (start + step) step
    else
      (db, false)

/-- The request data the view inspects: `request.is_ajax()`,
`request.method`, and `request.POST.get('indexes', [])` (`none` models the
key being absent, in which case `[].split(',')` raises `AttributeError`). -/
structure SortingRequest where
  isAjax : Bool
  method : String
  indexesParam : Option String
deriving DecidableEq, Repr

/-- Outcome of the view: a normal `HttpResponse(body, mimetype)`, the
`UnboundLocalError` raised by `json.dumps(response)` when the `except`
branch ran and left `response` unassigned, or an exception the view does
not catch (`ValueError` from `max`/`min` of an empty sequence). -/
inductive SortingOutcome where
  | response (body : String) (mimetype : String)
  | unboundLocalError
  | uncaughtError
deriving DecidableEq, Repr

/-- `json.dumps({'objects_sorted': b})`. -/
def sortedJson (b : Bool) : String :=
  "\x7b\"objects_sorted\": " ++ (if b then "true" else "false") ++ "\x7d"

/-- The body of the `try` block of `do_sorting_view`, after the posted
`indexes` string has been split on commas: `objects_dict` from filtering
the table on the posted pks, the descending/ascending start index with
Python's falsy fallback, and the save loop.  `max`/`min` of an empty
sequence raises an uncaught `ValueError`; a missing pk makes the loop
raise `AttributeError`, which the `except` clause swallows with `pass`,
leaving `response` unassigned so that `json.dumps(response)` raises
`UnboundLocalError`. -/
def process_sorting (ordering : List String) (db : SortableDb)
    (indexes : List String) : SortableDb × SortingOutcome :=
  let objs := db.filter (fun o => indexes.contains o.pk)
  match objs with
  | [] => (db, .uncaughtError)
  | _ :: _ =>
    let orders := objs.map (·.order)
    let desc := ordering.contains "-order"
    let start : Int :=
      if desc then pyOrInt (maxOf orders) (indexes.length : Int)
      else pyOrInt (minOf orders) 0
    let step : Int := if desc then -1 else 1
    let r := sortLoop (objs.map (·.pk)) indexes db start step
    if r.2 then (r.1, .response (sortedJson true) "application/json")
    else (r.1, .unboundLocalError)

/-- `SortableAdmin.do_sorting_view`, for a valid content-type id resolving
to a model class with default ordering `ordering` and table `db`.  Follows
the source line by line: the AJAX-POST guard, `indexes` from splitting the
posted string on commas (an absent `indexes` key yields the `[]` default,
whose missing `.split` raises `AttributeError`, caught with `pass`), then
the `try` block modelled by `process_sorting`. -/
def do_sorting_view (ordering : List String) (db : SortableDb)
    (req : SortingRequest) : SortableDb × SortingOutcome :=
  if req.isAjax && (req.method == "POST") then
    match req.indexesParam with
    | none => (db, .unboundLocalError)
    | some s => process_sorting ordering db (pySplitComma s)
  else
    (db, .response (sortedJson false) "application/json")

example :
    do_sorting_view ["order"] [⟨"1", 5⟩, ⟨"2", 6⟩]
      ⟨true, "POST", some "2,1"⟩ =
    ([⟨"1", 6⟩, ⟨"2", 5⟩],
     .response (sortedJson true) "application/json") := by decide

example :
    do_sorting_view ["-order"] [⟨"1", 5⟩, ⟨"2", 6⟩]
      ⟨true, "POST", some "2,1"⟩ =
    ([⟨"1", 5⟩, ⟨"2", 6⟩],
     .response (sortedJson true) "application/json") := by decide

example :
    do_sorting_view ["order"] [⟨"1", 5⟩, ⟨"2", 6⟩]
      ⟨true, "POST", some "2,7,1"⟩ =
    ([⟨"1", 5⟩, ⟨"2", 5⟩], .unboundLocalError) := by decide

example :
    do_sorting_view ["order"] [⟨"1", 5⟩] ⟨false, "POST", some "1"⟩ =
    ([⟨"1", 5⟩], .response (sortedJson false) "application/json") := by
  decide

/-! ### Lemmas about the save loop -/

theorem dbOrder_dbSave_ne (db : SortableDb) (pk pk' : String) (v : Int)
    (h : pk' ≠ pk) : dbOrder (dbSave db pk v) pk' = dbOrder db pk' := by
  induction db with
  | nil => rfl
  | cons o rest ih =>
    simp only [dbSave, List.map_cons, dbOrder] at ih ⊢
    by_cases h1 : o.pk = pk'
    · have h2 : (o.pk == pk) = false :=
        beq_eq_false_iff_ne.mpr (fun hc => h (by rw [← h1, hc]))
      rw [if_neg (by simp [h2])]
      rw [List.find?_cons_of_pos _ (by simp [h1]),
        List.find?_cons_of_pos _ (by simp [h1])]
    · by_cases h2 : o.pk = pk
      · rw [if_pos (by simp [h2])]
        rw [List.find?_cons_of_neg _ (by simp [h1]),
          List.find?_cons_of_neg _ (by simp [h1])]
        exact ih
      · rw [if_neg (by simp [h2])]
        rw [List.find?_cons_of_neg _ (by simp [h1]),
          List.find?_cons_of_neg _ (by simp [h1])]
        exact ih

theorem dbOrder_dbSave_self (db : SortableDb) (pk : String) (v : Int)
    (h : (dbOrder db pk).isSome) :
    dbOrder (dbSave db pk v) pk = some v := by
  induction db with
  | nil => simp [dbOrder] at h
  | cons o rest ih =>
    simp only [dbSave, List.map_cons, dbOrder] at ih h ⊢
    by_cases h1 : o.pk = pk
    · rw [if_pos (by simp [h1])]
      rw [List.find?_cons_of_pos _ (by simp [h1])]
      rfl
    · rw [if_neg (by simp [h1])]
      rw [List.find?_cons_of_neg _ (by simp [h1])]
      rw [List.find?_cons_of_neg _ (by simp [h1])] at h
      exact ih h

theorem dbOrder_dbSave_isSome (db : SortableDb) (pk pk' : String) (v : Int) :
    (dbOrder (dbSave db pk v) pk').isSome = (dbOrder db pk').isSome := by
  by_cases h : pk' = pk
  · subst h
    induction db with
    | nil => rfl
    | cons o rest ih =>
      simp only [dbSave, List.map_cons, dbOrder] at ih ⊢
      by_cases h1 : o.pk = pk'
      · rw [if_pos (by simp [h1])]
        rw [List.find?_cons_of_pos _ (by simp [h1]),
          List.find?_cons_of_pos _ (by simp [h1])]
        rfl
      · rw [if_neg (by simp [h1])]
        rw [List.find?_cons_of_neg _ (by simp [h1]),
          List.find?_cons_of_neg _ (by simp [h1])]
        exact ih
  · rw [dbOrder_dbSave_ne db pk pk' v h]

theorem sortLoop_untouched (dictPks : List String) (indexes : List String)
    (db : SortableDb) (start step : Int) (pk : String)
    (h : pk ∉ indexes) :
    dbOrder (sortLoop dictPks indexes db start step).1 pk = dbOrder db pk := by
  induction indexes generalizing db start with
  | nil => rfl
  | cons i rest ih =>
    simp only [sortLoop]
    by_cases hi : dictPks.contains i
    · rw [if_pos hi]
      rw [ih (dbSave db i start) (start + step) (fun hc => h (List.mem_cons_of_mem i hc))]
      exact dbOrder_dbSave_ne db i pk start (fun hc => h (hc ▸ List.mem_cons_self i rest))
    · rw [if_neg hi]

theorem sortLoop_ok (dictPks : List String) (indexes : List String)
    (db : SortableDb) (start step : Int)
    (h : ∀ i ∈ indexes, dictPks.contains i) :
    (sortLoop dictPks indexes db start step).2 = true := by
  induction indexes generalizing db start with
  | nil => rfl
  | cons i rest ih =>
    simp only [sortLoop]
    rw [if_pos (h i (List.mem_cons_self i rest))]
    exact ih (dbSave db i start) (start + step)
      (fun j hj => h j (List.mem_cons_of_mem i hj))

theorem sortLoop_order (dictPks : List String) (indexes : List String)
    (db : SortableDb) (start step : Int)
    (hmem : ∀ i ∈ indexes, dictPks.contains i)
    (hpresent : ∀ i ∈ indexes, (dbOrder db i).isSome)
    (hnodup : indexes.Nodup)
    (k : ℕ) (hk : k < indexes.length) :
    dbOrder (sortLoop dictPks indexes db start step).1 (indexes.get ⟨k, hk⟩) =
      some (start + k * step) := by
  induction indexes generalizing db start k with
  | nil => exact absurd hk (Nat.not_lt_zero k)
  | cons i rest ih =>
    simp only [sortLoop]
    rw [if_pos (hmem i (List.mem_cons_self i rest))]
    cases k with
    | zero =>
      simp only [List.get, Nat.cast_zero, zero_mul, add_zero]
      rw [sortLoop_untouched _ _ _ _ _ i (List.Nodup.not_mem hnodup)]
      exact dbOrder_dbSave_self db i start (hpresent i (List.mem_cons_self i rest))
    | succ k' =>
      have hk' : k' < rest.length := Nat.lt_of_succ_lt_succ hk
      have := ih (dbSave db i start) (start + step)
        (fun j hj => hmem j (List.mem_cons_of_mem i hj))
        (fun j hj => by
          rw [dbOrder_dbSave_isSome]
          exact hpresent j (List.mem_cons_of_mem i hj))
        (List.Nodup.of_cons hnodup) k' hk'
      simp only [List.get] at this ⊢
      rw [this]
      congr 1
      push_cast
      ring

theorem dbOrder_isSome_of_mem (db : SortableDb) (o : SortableObject)
    (ho : o ∈ db) : (dbOrder db o.pk).isSome := by
  have hfs : (db.find? (fun x => x.pk == o.pk)).isSome :=
    List.find?_isSome.mpr ⟨o, ho, by simp⟩
  cases hfind : db.find? (fun x => x.pk == o.pk) with
  | none => rw [hfind] at hfs; exact absurd hfs (by simp)
  | some x => simp [dbOrder, hfind]

theorem splitCommaAux_ne_nil (acc : List Char) (l : List Char) :
    splitCommaAux acc l ≠ [] := by
  induction l generalizing acc with
  | nil => simp [splitCommaAux]
  | cons c rest ih =>
    simp only [splitCommaAux]
    by_cases hc : c = ','
    · rw [if_pos hc]; simp
    · rw [if_neg hc]; exact ih _

theorem pySplitComma_ne_nil (s : String) : pySplitComma s ≠ [] :=
  splitCommaAux_ne_nil [] s.data

theorem do_sorting_view_ajax_post (ordering : List String)
    (db : SortableDb) (s : String) :
    do_sorting_view ordering db ⟨true, "POST", some s⟩ =
      process_sorting ordering db (pySplitComma s) := rfl

theorem sortLoop_append_fail (dictPks : List String)
    (done : List String) (bad : String) (rest : List String)
    (db : SortableDb) (start step : Int)
    (hdone : ∀ i ∈ done, dictPks.contains i)
    (hbad : ¬ dictPks.contains bad) :
    sortLoop dictPks (done ++ bad :: rest) db start step =
      ((sortLoop dictPks done db start step).1, false) := by
  induction done generalizing db start with
  | nil =>
    simp only [List.nil_append, sortLoop]
    rw [if_neg hbad]
  | cons i tl ih =>
    simp only [List.cons_append, sortLoop]
    rw [if_pos (hdone i (List.mem_cons_self i tl)),
      if_pos (hdone i (List.mem_cons_self i tl))]
    exact ih (dbSave db i start) (start + step)
      (fun j hj => hdone j (List.mem_cons_of_mem i hj))

/-- C1: for every AJAX POST to `do_sorting_view` whose comma-separated
`indexes` list of primary keys all reference existing objects (under a
valid content-type id resolving to model class data `ordering`/`db`), the
view reassigns the `order` field of the referenced objects to consecutive
integers following the order of the posted pks — starting, when the
model's default ordering contains `'-order'`, from the maximum existing
`order` among those objects (or the number of posted keys if that maximum
is falsy) with step `-1`, and otherwise from the minimum existing `order`
(or `0` if falsy) with step `+1` — saving each object in turn, and returns
the JSON body `{"objects_sorted": true}`. -/
theorem do_sorting_view_reindexes
    (ordering : List String) (db : SortableDb) (s : String)
    (indexes : List String) (start step : Int)
    (hidx : indexes = pySplitComma s)
    (hdbpk : (db.map (·.pk)).Nodup)
    (hmem : ∀ i ∈ indexes, ∃ o ∈ db, o.pk = i)
    (hnodup : indexes.Nodup)
    (hstart : start =
      (if ordering.contains "-order" then
        pyOrInt (maxOf ((db.filter (fun o => indexes.contains o.pk)).map (·.order)))
          (indexes.length : Int)
      else
        pyOrInt (minOf ((db.filter (fun o => indexes.contains o.pk)).map (·.order))) 0))
    (hstep : step = if ordering.contains "-order" then -1 else 1) :
    (do_sorting_view ordering db ⟨true, "POST", some s⟩).2 =
        SortingOutcome.response (sortedJson true) "application/json" ∧
    ∀ k (hk : k < indexes.length),
      dbOrder (do_sorting_view ordering db ⟨true, "POST", some s⟩).1
          (indexes.get ⟨k, hk⟩) = some (start + k * step) := by
  subst hidx hstart hstep
  rw [do_sorting_view_ajax_post]
  have hne : pySplitComma s ≠ [] := pySplitComma_ne_nil s
  obtain ⟨i0, hi0⟩ : ∃ i, i ∈ pySplitComma s := by
    cases hcase : pySplitComma s with
    | nil => exact absurd hcase hne
    | cons a l => exact ⟨a, hcase ▸ List.mem_cons_self a l⟩
  obtain ⟨o0, ho0, ho0pk⟩ := hmem i0 hi0
  have ho0f : o0 ∈ db.filter (fun o => (pySplitComma s).contains o.pk) :=
    List.mem_filter.mpr ⟨ho0, List.elem_eq_true_of_mem (ho0pk.symm ▸ hi0)⟩
  have hdict : ∀ i ∈ pySplitComma s,
      ((db.filter (fun o => (pySplitComma s).contains o.pk)).map (·.pk)).contains i := by
    intro i hi
    obtain ⟨o, ho, hopk⟩ := hmem i hi
    have hof : o ∈ db.filter (fun o => (pySplitComma s).contains o.pk) :=
      List.mem_filter.mpr ⟨ho, List.elem_eq_true_of_mem (hopk.symm ▸ hi)⟩
    exact List.elem_eq_true_of_mem (hopk ▸ List.mem_map_of_mem _ hof)
  have hpresent : ∀ i ∈ pySplitComma s, (dbOrder db i).isSome := by
    intro i hi
    obtain ⟨o, ho, hopk⟩ := hmem i hi
    exact hopk ▸ dbOrder_isSome_of_mem db o ho
  cases hobjs : db.filter (fun o => (pySplitComma s).contains o.pk) with
  | nil => rw [hobjs] at ho0f; exact absurd ho0f (List.not_mem_nil o0)
  | cons a l =>
    rw [hobjs] at hdict
    simp only [process_sorting, hobjs]
    rw [if_pos (sortLoop_ok _ _ _ _ _ hdict)]
    refine ⟨rfl, ?_⟩
    intro k hk
    exact sortLoop_order _ _ db _ _ hdict hpresent hnodup k hk

/-- Witness for C1 at a concrete database and request. -/
theorem do_sorting_view_reindexes_witness :
    (do_sorting_view ["order"] [⟨"1", 5⟩, ⟨"2", 6⟩]
        ⟨true, "POST", some "2,1"⟩).2 =
      SortingOutcome.response (sortedJson true) "application/json" ∧
    dbOrder (do_sorting_view ["order"] [⟨"1", 5⟩, ⟨"2", 6⟩]
        ⟨true, "POST", some "2,1"⟩).1
      ((pySplitComma "2,1").get ⟨0, by decide⟩) = some (5 + (0 : ℕ) * 1) := by
  have h := do_sorting_view_reindexes ["order"] [⟨"1", 5⟩, ⟨"2", 6⟩] "2,1"
    (pySplitComma "2,1") 5 1 rfl (by decide) (by decide) (by decide)
    (by decide) (by decide)
  exact ⟨h.1, h.2 0 (by decide)⟩

/-- C2: for every AJAX POST in which a posted primary key has no matching
object (the first such key `bad` after the prefix `done` of matched keys),
the loop's `setattr` on `None` raises `AttributeError`; the `except`
branch leaves `response` unassigned, so `json.dumps(response)` raises an
unbound-local error instead of returning JSON, while the objects already
saved for the `done` prefix keep their new consecutive `order` values
(the partial update is not rolled back). -/
theorem do_sorting_view_unbound_local
    (ordering : List String) (db : SortableDb) (s : String)
    (done : List String) (bad : String) (rest : List String)
    (start step : Int)
    (hsplit : pySplitComma s = done ++ bad :: rest)
    (hdbpk : (db.map (·.pk)).Nodup)
    (hdone : ∀ i ∈ done, ∃ o ∈ db, o.pk = i)
    (hdnodup : done.Nodup)
    (hbad : ∀ o ∈ db, o.pk ≠ bad)
    (hne : db.filter (fun o => (pySplitComma s).contains o.pk) ≠ [])
    (hstart : start =
      (if ordering.contains "-order" then
        pyOrInt
          (maxOf ((db.filter (fun o => (pySplitComma s).contains o.pk)).map (·.order)))
          ((pySplitComma s).length : Int)
      else
        pyOrInt
          (minOf ((db.filter (fun o => (pySplitComma s).contains o.pk)).map (·.order)))
          0))
    (hstep : step = if ordering.contains "-order" then -1 else 1) :
    (do_sorting_view ordering db ⟨true, "POST", some s⟩).2 =
        SortingOutcome.unboundLocalError ∧
    ∀ k (hk : k < done.length),
      dbOrder (do_sorting_view ordering db ⟨true, "POST", some s⟩).1
          (done.get ⟨k, hk⟩) = some (start + k * step) := by
  subst hstart hstep
  rw [do_sorting_view_ajax_post]
  have hdict : ∀ i ∈ done,
      ((db.filter (fun o => (pySplitComma s).contains o.pk)).map (·.pk)).contains i := by
    intro i hi
    obtain ⟨o, ho, hopk⟩ := hdone i hi
    have himem : i ∈ pySplitComma s := by
      rw [hsplit]; exact List.mem_append_left _ hi
    have hof : o ∈ db.filter (fun o => (pySplitComma s).contains o.pk) :=
      List.mem_filter.mpr ⟨ho, List.elem_eq_true_of_mem (hopk.symm ▸ himem)⟩
    exact List.elem_eq_true_of_mem (hopk ▸ List.mem_map_of_mem _ hof)
  have hbaddict :
      ¬ ((db.filter (fun o => (pySplitComma s).contains o.pk)).map (·.pk)).contains bad := by
    intro hc
    obtain ⟨o, hof, hopk⟩ := List.mem_map.mp (List.mem_of_elem_eq_true hc)
    exact hbad o (List.mem_filter.mp hof).1 hopk
  have hpresent : ∀ i ∈ done, (dbOrder db i).isSome := by
    intro i hi
    obtain ⟨o, ho, hopk⟩ := hdone i hi
    exact hopk ▸ dbOrder_isSome_of_mem db o ho
  cases hobjs : db.filter (fun o => (pySplitComma s).contains o.pk) with
  | nil => exact absurd hobjs hne
  | cons a l =>
    rw [hobjs] at hdict hbaddict
    simp only [process_sorting, hobjs]
    rw [hsplit]
    rw [sortLoop_append_fail _ _ _ _ _ _ _ hdict (fun hc => hbaddict hc)]
    refine ⟨rfl, ?_⟩
    intro k hk
    exact sortLoop_order _ _ db _ _ hdict hpresent hdnodup k hk

/-- Witness for C2: pk "7" is not in the table, the loop fails after
saving the object with pk "2". -/
theorem do_sorting_view_unbound_local_witness :
    (do_sorting_view ["order"] [⟨"1", 5⟩, ⟨"2", 6⟩]
        ⟨true, "POST", some "2,7,1"⟩).2 = SortingOutcome.unboundLocalError ∧
    dbOrder (do_sorting_view ["order"] [⟨"1", 5⟩, ⟨"2", 6⟩]
        ⟨true, "POST", some "2,7,1"⟩).1
      (["2"].get ⟨0, by decide⟩) = some (5 + (0 : ℕ) * 1) := by
  have h := do_sorting_view_unbound_local ["order"] [⟨"1", 5⟩, ⟨"2", 6⟩]
    "2,7,1" ["2"] "7" ["1"] 5 1 (by decide) (by decide) (by decide)
    (by decide) (by decide) (by decide) (by decide) (by decide)
  exact ⟨h.1, h.2 0 (by decide)⟩

/-- C3: a request that is not both AJAX and POST changes no object and
gets the JSON body `{"objects_sorted": false}` with mimetype
`application/json`. -/
theorem do_sorting_view_not_ajax_post
    (ordering : List String) (db : SortableDb) (req : SortingRequest)
    (h : ¬(req.isAjax = true ∧ req.method = "POST")) :
    do_sorting_view ordering db req =
      (db, SortingOutcome.response (sortedJson false) "application/json") := by
  simp only [do_sorting_view]
  rw [if_neg (fun hc => by
    rw [Bool.and_eq_true, beq_iff_eq] at hc
    exact h hc)]

/-- Witness for C3: a GET request. -/
theorem do_sorting_view_not_ajax_post_witness :
    do_sorting_view ["order"] [⟨"1", 5⟩] ⟨true, "GET", none⟩ =
      ([⟨"1", 5⟩],
       SortingOutcome.response (sortedJson false) "application/json") :=
  do_sorting_view_not_ajax_post ["order"] [⟨"1", 5⟩] ⟨true, "GET", none⟩
    (by decide)

/-! ## Inline form initial data (`InlineModelForm.__init__`) -/

/-- A Python dict with string keys (field values coded as naturals),
modelled as an association list with `dict` assignment semantics:
assigning an existing key replaces its value in place, a fresh key is
appended. -/
abbrev PyDict := List (String × Nat)

/-- `d[k]`, `none` when the key is absent. -/
def dictGet (d : PyDict) (k : String) : Option Nat :=
  (d.find? (fun p => p.1 == k)).map (·.2)

/-- `d[k] = v`. -/
def dictSet (d : PyDict) (k : String) (v : Nat) : PyDict :=
  if (d.find? (fun p => p.1 == k)).isSome then
    d.map (fun p => if p.1 == k then (k, v) else p)
  else
    d ++ [(k, v)]

/-- `d.update(e)`. -/
def dictUpdate (d e : PyDict) : PyDict :=
  e.foldl (fun acc p => dictSet acc p.1 p.2) d

/-- A translation row: its `language_code`, its master's id, and the field
dict `model_to_dict` extracts from it (containing the translation's own
`"id"` when the id field is among the form's fields). -/
structure Translation where
  language_code : String
  master_id : Nat
  fields : PyDict
deriving DecidableEq, Repr

/-- The master instance handed to the form: its cached translation, if
any, and the translation rows that exist for it. -/
structure ModelInstance where
  cached : Option Translation
  translations : List Translation
deriving DecidableEq, Repr

/-- `get_translation(instance, language)`; `DoesNotExist` is `none`. -/
def get_translation (inst : ModelInstance) (language : String) :
    Option Translation :=
  inst.translations.find? (fun t => t.language_code == language)

/-- The translation record `InlineModelForm.__init__` settles on: the
cached one when present with the form's language, else the one fetched
for that language, else `None`. -/
def selectTranslation (language : String) (inst : ModelInstance) :
    Option Translation :=
  match inst.cached with
  | some t =>
    if t.language_code == language then some t
    else get_translation inst language
  | none => get_translation inst language

/-- `model_to_dict(trans, ...)` followed by the id swap of the source: if
the dict has an `"id"` key, its value is replaced by `trans.master.id`. -/
def translationData (t : Translation) : PyDict :=
  if (dictGet t.fields "id").isSome then dictSet t.fields "id" t.master_id
  else t.fields

/-- The `initial` value `InlineModelForm.__init__` passes on: the object
data from the selected translation (empty when the instance is absent or
has no translation for the language), updated with any explicitly passed
`initial` dict. -/
def inlineFormInitial (language : String) (inst : Option ModelInstance)
    (initial : Option PyDict) : PyDict :=
  let object_data : PyDict :=
    match inst with
    | none => []
    | some i =>
      match selectTranslation language i with
      | none => []
      | some t => translationData t
  match initial with
  | none => object_data
  | some init => dictUpdate object_data init

/-! ### Dict lemmas -/

theorem find?_setMap_self (d : PyDict) (k : String) (v : Nat)
    (h : (d.find? (fun p => p.1 == k)).isSome) :
    (d.map (fun p => if p.1 == k then (k, v) else p)).find?
      (fun p => p.1 == k) = some (k, v) := by
  induction d with
  | nil => simp [List.find?] at h
  | cons p rest ih =>
    simp only [List.map_cons]
    by_cases h1 : p.1 = k
    · rw [if_pos (by simp [h1])]
      rw [List.find?_cons_of_pos _ (by simp)]
    · rw [if_neg (by simp [h1])]
      rw [List.find?_cons_of_neg _ (by simp [h1])]
      rw [List.find?_cons_of_neg _ (by simp [h1])] at h
      exact ih h

theorem find?_setMap_ne (d : PyDict) (k k' : String) (v : Nat)
    (h : k' ≠ k) :
    (d.map (fun p => if p.1 == k then (k, v) else p)).find?
      (fun p => p.1 == k') = d.find? (fun p => p.1 == k') := by
  induction d with
  | nil => rfl
  | cons p rest ih =>
    simp only [List.map_cons]
    by_cases h1 : p.1 = k
    · rw [if_pos (by simp [h1])]
      rw [List.find?_cons_of_neg _ (by
        simp only [beq_iff_eq]
        exact fun hc => h hc.symm)]
      rw [List.find?_cons_of_neg _ (by
        simp only [beq_iff_eq]
        rw [h1]
        exact fun hc => h hc.symm)]
      exact ih
    · rw [if_neg (by simp [h1])]
      by_cases h2 : p.1 = k'
      · rw [List.find?_cons_of_pos _ (by simp [h2]),
          List.find?_cons_of_pos _ (by simp [h2])]
      · rw [List.find?_cons_of_neg _ (by simp [h2]),
          List.find?_cons_of_neg _ (by simp [h2])]
        exact ih

theorem dictGet_dictSet_self (d : PyDict) (k : String) (v : Nat) :
    dictGet (dictSet d k v) k = some v := by
  by_cases h : (d.find? (fun p => p.1 == k)).isSome
  · rw [dictSet, if_pos h, dictGet, find?_setMap_self d k v h]
    rfl
  · rw [dictSet, if_neg h, dictGet, List.find?_append]
    rw [Option.not_isSome_iff_eq_none] at h
    rw [h]
    simp

theorem dictGet_dictSet_ne (d : PyDict) (k k' : String) (v : Nat)
    (h : k' ≠ k) : dictGet (dictSet d k v) k' = dictGet d k' := by
  by_cases hp : (d.find? (fun p => p.1 == k)).isSome
  · rw [dictSet, if_pos hp, dictGet, find?_setMap_ne d k k' v h]
    rfl
  · rw [dictSet, if_neg hp, dictGet, List.find?_append]
    cases hfind : d.find? (fun p => p.1 == k') with
    | some q => simp [dictGet, hfind]
    | none =>
      have hkk : (k == k') = false := by
        simp only [beq_eq_false_iff_ne]
        exact fun hc => h hc.symm
      simp [dictGet, hfind, List.find?_cons, hkk]

theorem dictGet_dictUpdate_no_key (d e : PyDict) (k : String)
    (h : ∀ p ∈ e, p.1 ≠ k) :
    dictGet (dictUpdate d e) k = dictGet d k := by
  induction e generalizing d with
  | nil => rfl
  | cons p tl ih =>
    simp only [dictUpdate, List.foldl_cons]
    rw [show List.foldl (fun acc p => dictSet acc p.1 p.2)
      (dictSet d p.1 p.2) tl = dictUpdate (dictSet d p.1 p.2) tl from rfl]
    rw [ih (dictSet d p.1 p.2) (fun q hq => h q (List.mem_cons_of_mem p hq))]
    exact dictGet_dictSet_ne _ _ _ _
      (fun hc => h p (List.mem_cons_self p tl) hc.symm)

theorem dictGet_dictUpdate_of_get (d e : PyDict) (k : String) (v : Nat)
    (hnd : (e.map Prod.fst).Nodup)
    (h : dictGet e k = some v) :
    dictGet (dictUpdate d e) k = some v := by
  induction e generalizing d with
  | nil => simp [dictGet] at h
  | cons p tl ih =>
    simp only [dictUpdate, List.foldl_cons]
    rw [show List.foldl (fun acc p => dictSet acc p.1 p.2)
      (dictSet d p.1 p.2) tl = dictUpdate (dictSet d p.1 p.2) tl from rfl]
    by_cases h1 : p.1 = k
    · have hv : p.2 = v := by
        rw [dictGet, List.find?_cons_of_pos _ (by simp [h1])] at h
        simpa using h
      have hnk : ∀ q ∈ tl, q.1 ≠ k := by
        intro q hq hc
        have hmem : k ∈ tl.map Prod.fst := hc ▸ List.mem_map_of_mem _ hq
        rw [List.map_cons] at hnd
        exact (List.Nodup.not_mem hnd) (h1.symm ▸ hmem)
      rw [dictGet_dictUpdate_no_key _ _ _ hnk, h1, dictGet_dictSet_self, hv]
    · have htl : dictGet tl k = some v := by
        rw [dictGet, List.find?_cons_of_neg _ (by simp [h1])] at h
        exact h
      exact ih (dictSet d p.1 p.2)
        (by rw [List.map_cons] at hnd; exact hnd.of_cons) htl

/-- C4: the form's initial data is selected from exactly one translation
record — the cached translation when it exists with the form's language,
otherwise the translation fetched for that language — and is empty when no
translation exists for that language; whenever a translation is used and
its dict has an `"id"` key, that value is replaced by the master object's
id; and explicitly passed `initial` entries override translation-derived
values. -/
theorem inline_form_initial_selection
    (language : String) (i : ModelInstance) (init : PyDict)
    (k : String) (v w : Nat)
    (hnodup : (init.map Prod.fst).Nodup) :
    (∀ t, i.cached = some t → t.language_code = language →
      inlineFormInitial language (some i) (some init) =
        dictUpdate (translationData t) init) ∧
    ((∀ t, i.cached = some t → t.language_code ≠ language) →
      selectTranslation language i = get_translation i language) ∧
    (selectTranslation language i = none →
      inlineFormInitial language (some i) none = [] ∧
      inlineFormInitial language (some i) (some init) = dictUpdate [] init) ∧
    (∀ t, selectTranslation language i = some t →
      dictGet t.fields "id" = some w → dictGet init "id" = none →
      dictGet (inlineFormInitial language (some i) (some init)) "id" =
        some t.master_id) ∧
    (dictGet init k = some v →
      dictGet (inlineFormInitial language (some i) (some init)) k = some v) := by
  refine ⟨?_, ?_, ?_, ?_, ?_⟩
  · intro t hc hl
    have hsel : selectTranslation language i = some t := by
      simp [selectTranslation, hc, hl]
    simp [inlineFormInitial, hsel]
  · intro hne
    cases hcache : i.cached with
    | none => simp [selectTranslation, hcache]
    | some t =>
      have : (t.language_code == language) = false :=
        beq_eq_false_iff_ne.mpr (hne t hcache)
      simp [selectTranslation, hcache, this]
  · intro hsel
    exact ⟨by simp [inlineFormInitial, hsel], by simp [inlineFormInitial, hsel]⟩
  · intro t hsel hid hinit
    have hfind : init.find? (fun p => p.1 == "id") = none := by
      cases hf : init.find? (fun p => p.1 == "id") with
      | none => rfl
      | some q => rw [dictGet, hf] at hinit; simp at hinit
    have hnk : ∀ p ∈ init, p.1 ≠ "id" :=
      fun p hp => by simpa using List.find?_eq_none.mp hfind p hp
    simp only [inlineFormInitial, hsel]
    rw [dictGet_dictUpdate_no_key _ _ _ hnk]
    rw [translationData, if_pos (by rw [hid]; rfl)]
    exact dictGet_dictSet_self _ _ _
  · intro hget
    cases hsel : selectTranslation language i with
    | none =>
      simp only [inlineFormInitial, hsel]
      exact dictGet_dictUpdate_of_get _ _ _ _ hnodup hget
    | some t =>
      simp only [inlineFormInitial, hsel]
      exact dictGet_dictUpdate_of_get _ _ _ _ hnodup hget

/-- Witness for C4: a fetched translation backs the form, its `"id"` is
swapped for the master's id `7`, and the passed `initial` entry survives. -/
theorem inline_form_initial_selection_witness :
    dictGet (inlineFormInitial "en"
        (some ⟨none, [⟨"en", 7, [("id", 99), ("title", 3)]⟩]⟩)
        (some [("extra", 1)])) "id" = some 7 ∧
    dictGet (inlineFormInitial "en"
        (some ⟨none, [⟨"en", 7, [("id", 99), ("title", 3)]⟩]⟩)
        (some [("extra", 1)])) "extra" = some 1 := by
  have h := inline_form_initial_selection "en"
    ⟨none, [⟨"en", 7, [("id", 99), ("title", 3)]⟩]⟩
    [("extra", 1)] "extra" 1 99 (by decide)
  exact ⟨h.2.2.2.1 ⟨"en", 7, [("id", 99), ("title", 3)]⟩ (by decide)
      (by decide) (by decide),
    h.2.2.2.2 (by decide)⟩

/-! ## Form-factory exclude list (`TranslatableAdmin.get_form` and
`TranslatableInlineModelAdmin.get_form`, which build it identically) -/

/-- The `exclude` value `get_form` hands to
`translatable_modelform_factory`: the method builds
`exclude = list(self.exclude or []) + kwargs.get("exclude", []) +
get_readonly_fields(...) + ['language_code']` and stores it under
`defaults["exclude"]`, but then runs `defaults.update(kwargs)`, which
overwrites that entry with the caller's `exclude` kwarg whenever one was
passed. -/
def get_form_exclude (adminExclude : Option (List String))
    (readonlyFields : List String) (kwargsExclude : Option (List String)) :
    List String :=
  let exclude :=
    (match adminExclude with
     | none => []
     | some l => l) ++
    (match kwargsExclude with
     | none => []
     | some l => l) ++
    readonlyFields ++ ["language_code"]
  match kwargsExclude with
  | none => exclude
  | some l => l

/-- Counterexample to C5: when the caller passes an `exclude` kwarg (here
the empty list), `defaults.update(kwargs)` overwrites the computed list
and `'language_code'` is NOT in the exclude passed to the factory. -/
theorem get_form_exclude_kwargs_counterexample :
    ¬ ("language_code" ∈ get_form_exclude none [] (some [])) := by
  decide

/-- C5 (amended): when the caller supplies no `exclude` keyword argument,
the exclude list passed to the translatable model-form factory always
contains `'language_code'`, whatever the admin's own exclude setting and
read-only fields; when the caller does pass an `exclude` kwarg,
`defaults.update(kwargs)` replaces the computed list with exactly the
caller's value. -/
theorem get_form_exclude_language_code (adminExclude : Option (List String))
    (readonlyFields : List String) (kwargsExclude : List String) :
    "language_code" ∈ get_form_exclude adminExclude readonlyFields none ∧
    get_form_exclude adminExclude readonlyFields (some kwargsExclude) =
      kwargsExclude := by
  refine ⟨?_, rfl⟩
  cases adminExclude <;> simp [get_form_exclude]

/-! ## Changelist queryset (`TranslatableAdmin.queryset`) -/

/-- The queryset descriptor the claim inspects: whether it came from
`.untranslated()`, the `use_fallbacks(*languages)` argument list, and the
`order_by` arguments (empty when `order_by` was not called). -/
structure TransQueryset where
  untranslated : Bool
  fallbacks : List String
  order_by : List String
deriving DecidableEq, Repr

/-- `self._language(request)`:
`request.GET.get(self.query_language_key, get_language())` with
`query_language_key = 'language'`. -/
def request_language (queryParam : Option String)
    (activeLanguage : String) : String :=
  match queryParam with
  | none => activeLanguage
  | some l => l

/-- The `languages` list built by `TranslatableAdmin.queryset`:
`[language]`, then each fallback appended unless already present. -/
def build_languages (language : String) (fallbackLanguages : List String) :
    List String :=
  fallbackLanguages.foldl
    (fun langs lang => if lang ∈ langs then langs else langs ++ [lang])
    [language]

/-- `TranslatableAdmin.queryset`: untranslated queryset with the language
fallbacks, then `order_by(*ordering)` when
`getattr(self, 'ordering', None) or ()` is nonempty. -/
def translatable_admin_queryset (queryParam : Option String)
    (activeLanguage : String) (fallbackLanguages : List String)
    (ordering : Option (List String)) : TransQueryset :=
  let language := request_language queryParam activeLanguage
  let languages := build_languages language fallbackLanguages
  let qs : TransQueryset := ⟨true, languages, []⟩
  let ord : List String :=
    match ordering with
    | none => []
    | some l => l
  if ord.isEmpty then qs else { qs with order_by := ord }

/-- `SortableAdmin.ordering`. -/
def sortable_admin_ordering : List String := ["order", "id"]

theorem build_languages_go_mem (fb : List String) (acc : List String)
    (l : String) :
    l ∈ fb.foldl
        (fun langs lang => if lang ∈ langs then langs else langs ++ [lang])
        acc ↔
      l ∈ acc ∨ l ∈ fb := by
  induction fb generalizing acc with
  | nil => simp
  | cons f tl ih =>
    simp only [List.foldl_cons]
    rw [ih]
    by_cases hf : f ∈ acc
    · rw [if_pos hf]
      simp only [List.mem_cons]
      constructor
      · rintro (h | h)
        · exact Or.inl h
        · exact Or.inr (Or.inr h)
      · rintro (h | h | h)
        · exact Or.inl h
        · exact Or.inl (h ▸ hf)
        · exact Or.inr h
    · rw [if_neg hf]
      simp only [List.mem_append, List.mem_singleton, List.mem_cons]
      tauto

theorem build_languages_go_nodup (fb : List String) (acc : List String)
    (h : acc.Nodup) :
    (fb.foldl
      (fun langs lang => if lang ∈ langs then langs else langs ++ [lang])
      acc).Nodup := by
  induction fb generalizing acc with
  | nil => exact h
  | cons f tl ih =>
    simp only [List.foldl_cons]
    by_cases hf : f ∈ acc
    · rw [if_pos hf]
      exact ih _ h
    · rw [if_neg hf]
      exact ih _ (by simp [List.nodup_append, h, hf])

theorem build_languages_go_sublist (fb : List String) (acc : List String) :
    ∃ rest,
      fb.foldl
        (fun langs lang => if lang ∈ langs then langs else langs ++ [lang])
        acc = acc ++ rest ∧
      List.Sublist rest fb := by
  induction fb generalizing acc with
  | nil => exact ⟨[], by simp, List.nil_sublist []⟩
  | cons f tl ih =>
    simp only [List.foldl_cons]
    by_cases hf : f ∈ acc
    · rw [if_pos hf]
      obtain ⟨rest, h1, h2⟩ := ih acc
      exact ⟨rest, h1, h2.cons f⟩
    · rw [if_neg hf]
      obtain ⟨rest, h1, h2⟩ := ih (acc ++ [f])
      refine ⟨f :: rest, ?_, h2.cons₂ f⟩
      rw [h1, List.append_assoc]
      rfl

theorem translatable_admin_queryset_fallbacks (queryParam : Option String)
    (activeLanguage : String) (fallbackLanguages : List String)
    (ordering : Option (List String)) :
    (translatable_admin_queryset queryParam activeLanguage
        fallbackLanguages ordering).fallbacks =
      build_languages (request_language queryParam activeLanguage)
        fallbackLanguages := by
  simp only [translatable_admin_queryset]
  split <;> rfl

theorem translatable_admin_queryset_untrans (queryParam : Option String)
    (activeLanguage : String) (fallbackLanguages : List String)
    (ordering : Option (List String)) :
    (translatable_admin_queryset queryParam activeLanguage
        fallbackLanguages ordering).untranslated = true := by
  simp only [translatable_admin_queryset]
  split <;> rfl

/-- C6: `TranslatableAdmin.queryset` returns the untranslated queryset
with fallbacks `[request language, then each configured fallback not
already present, in order, without duplicates]`, where the request
language comes from the `language` query parameter defaulting to the
active language; and a nonempty admin `ordering` (for `SortableAdmin`,
`('order', 'id')`) is applied with `order_by` while an absent or empty
one is not. -/
theorem translatable_admin_queryset_spec (queryParam : Option String)
    (activeLanguage : String) (fallbackLanguages : List String)
    (ordering : Option (List String)) (o : List String) :
    (translatable_admin_queryset queryParam activeLanguage
        fallbackLanguages ordering).untranslated = true ∧
    (∃ rest,
      (translatable_admin_queryset queryParam activeLanguage
          fallbackLanguages ordering).fallbacks =
        request_language queryParam activeLanguage :: rest ∧
      List.Sublist rest fallbackLanguages) ∧
    (translatable_admin_queryset queryParam activeLanguage
        fallbackLanguages ordering).fallbacks.Nodup ∧
    (∀ l,
      l ∈ (translatable_admin_queryset queryParam activeLanguage
          fallbackLanguages ordering).fallbacks ↔
        l = request_language queryParam activeLanguage ∨
        l ∈ fallbackLanguages) ∧
    (ordering = some o → o ≠ [] →
      (translatable_admin_queryset queryParam activeLanguage
          fallbackLanguages ordering).order_by = o) ∧
    ((ordering = none ∨ ordering = some []) →
      (translatable_admin_queryset queryParam activeLanguage
          fallbackLanguages ordering).order_by = []) ∧
    (translatable_admin_queryset queryParam activeLanguage
        fallbackLanguages (some sortable_admin_ordering)).order_by =
      sortable_admin_ordering := by
  refine ⟨translatable_admin_queryset_untrans _ _ _ _, ?_, ?_, ?_, ?_, ?_, rfl⟩
  · rw [translatable_admin_queryset_fallbacks]
    obtain ⟨rest, h1, h2⟩ := build_languages_go_sublist fallbackLanguages
      [request_language queryParam activeLanguage]
    exact ⟨rest, by rw [build_languages, h1]; rfl, h2⟩
  · rw [translatable_admin_queryset_fallbacks]
    exact build_languages_go_nodup _ _ (List.nodup_singleton _)
  · intro l
    rw [translatable_admin_queryset_fallbacks, build_languages,
      build_languages_go_mem]
    simp
  · intro h he
    subst h
    simp only [translatable_admin_queryset]
    rw [if_neg (by simpa using he)]
  · rintro (h | h) <;> subst h <;> rfl

/-- Witness for C6 at concrete inputs (language from the query parameter,
`SortableAdmin`'s ordering applied). -/
theorem translatable_admin_queryset_spec_witness :
    (translatable_admin_queryset (some "de") "en" ["en", "fr", "de"]
        (some ["order", "id"])).order_by = ["order", "id"] ∧
    ("fr" ∈ (translatable_admin_queryset (some "de") "en" ["en", "fr", "de"]
        (some ["order", "id"])).fallbacks ↔
      "fr" = request_language (some "de") "en" ∨ "fr" ∈ ["en", "fr", "de"]) := by
  have h := translatable_admin_queryset_spec (some "de") "en"
    ["en", "fr", "de"] (some ["order", "id"]) ["order", "id"]
  exact ⟨h.2.2.2.2.1 rfl (by decide), h.2.2.2.1 "fr"⟩

/-! ## URL registration (`TranslatableAdmin.get_urls`,
`SortableAdmin.get_urls`) -/

/-- A URL pattern: its regex and its reverse name. -/
structure UrlPattern where
  regex : String
  urlName : String
deriving DecidableEq, Repr

/-- `TranslatableAdmin.get_urls`: the delete-translation pattern (named
`<app>_<module>_delete_translation`, wrapped in `admin_site.admin_view`)
prepended to the inherited patterns. -/
def translatable_admin_get_urls (appLabel moduleName : String)
    (inherited : List UrlPattern) : List UrlPattern :=
  [⟨"^(.+)/delete-translation/(.+)/$",
    appLabel ++ "_" ++ moduleName ++ "_delete_translation"⟩] ++ inherited

/-- `SortableAdmin.get_urls`: the do-sorting and sort patterns prepended
to the inherited patterns. -/
def sortable_admin_get_urls (inherited : List UrlPattern) :
    List UrlPattern :=
  [⟨"^sorting/do-sorting/(?P<model_type_id>\\d+)/$", "admin_do_sorting"⟩,
   ⟨"^sort/$", "admin_sort"⟩] ++ inherited

/-- Django URL resolution order: the first pattern whose regex matches the
request path wins (modelled by an abstract match predicate). -/
def resolve_url (pats : List UrlPattern) (isMatch : UrlPattern → Bool) :
    Option UrlPattern :=
  pats.find? isMatch

/-- C7: both `get_urls` overrides return the package's own patterns
prepended before the inherited admin patterns — `TranslatableAdmin` the
`(.+)/delete-translation/(.+)/` pattern named
`<app>_<module>_delete_translation` and `SortableAdmin` the
`sorting/do-sorting/<model_type_id>/` (`admin_do_sorting`) and `sort/`
(`admin_sort`) patterns — so whenever a custom pattern matches, URL
resolution picks it rather than any inherited pattern. -/
theorem get_urls_prepend_custom (appLabel moduleName : String)
    (inherited inherited2 : List UrlPattern)
    (isMatch isMatch2 : UrlPattern → Bool) :
    translatable_admin_get_urls appLabel moduleName inherited =
      ⟨"^(.+)/delete-translation/(.+)/$",
        appLabel ++ "_" ++ moduleName ++ "_delete_translation"⟩ ::
        inherited ∧
    sortable_admin_get_urls inherited2 =
      ⟨"^sorting/do-sorting/(?P<model_type_id>\\d+)/$",
        "admin_do_sorting"⟩ ::
        ⟨"^sort/$", "admin_sort"⟩ :: inherited2 ∧
    (isMatch ⟨"^(.+)/delete-translation/(.+)/$",
        appLabel ++ "_" ++ moduleName ++ "_delete_translation"⟩ = true →
      resolve_url (translatable_admin_get_urls appLabel moduleName
          inherited) isMatch =
        some ⟨"^(.+)/delete-translation/(.+)/$",
          appLabel ++ "_" ++ moduleName ++ "_delete_translation"⟩) ∧
    (isMatch2 ⟨"^sorting/do-sorting/(?P<model_type_id>\\d+)/$",
        "admin_do_sorting"⟩ = true →
      resolve_url (sortable_admin_get_urls inherited2) isMatch2 =
        some ⟨"^sorting/do-sorting/(?P<model_type_id>\\d+)/$",
          "admin_do_sorting"⟩) := by
  refine ⟨rfl, rfl, ?_, ?_⟩
  · intro h
    exact List.find?_cons_of_pos _ h
  · intro h
    exact List.find?_cons_of_pos _ h

/-- Witness for C7: a matcher selecting the do-sorting pattern resolves to
it ahead of an inherited catch-all pattern. -/
theorem get_urls_prepend_custom_witness :
    resolve_url (sortable_admin_get_urls [⟨"^(.+)$", "catch_all"⟩])
        (fun u => u.urlName == "admin_do_sorting") =
      some ⟨"^sorting/do-sorting/(?P<model_type_id>\\d+)/$",
        "admin_do_sorting"⟩ :=
  (get_urls_prepend_custom "app" "mod" [] [⟨"^(.+)$", "catch_all"⟩]
    (fun _ => true) (fun u => u.urlName == "admin_do_sorting")).2.2.2
    (by decide)

/-! ## Delete-translation view (`TranslatableAdmin.delete_translation`) -/

abbrev TranslationDb := List (Nat × String)

def available_languages (db : TranslationDb) (master : Nat) : List String :=
  (db.filter (fun t => t.1 == master)).map (·.2)

structure DeleteRequest where
  objectId : Nat
  languageCode : String
  hasDeletePerm : Bool
  permsNeeded : Bool
  isPost : Bool
deriving DecidableEq, Repr

inductive DeleteOutcome where
  | http404
  | permissionDenied
  | notAllowedPage
  | confirmationPage
  | deletedRedirect
deriving DecidableEq, Repr

def delete_translation (db : TranslationDb) (r : DeleteRequest) :
    TranslationDb × DeleteOutcome :=
  match db.find? (fun t => t.1 == r.objectId && t.2 == r.languageCode) with
  | none => (db, .http404)
  | some _ =>
    if !r.hasDeletePerm then (db, .permissionDenied)
    else if (available_languages db r.objectId).length ≤ 1 then
      (db, .notAllowedPage)
    else if r.isPost then
      if r.permsNeeded then (db, .permissionDenied)
      else (db.filter
        (fun t => !(t.1 == r.objectId && t.2 == r.languageCode)),
        .deletedRedirect)
    else (db, .confirmationPage)

def run_delete_requests (db : TranslationDb) (rs : List DeleteRequest) :
    TranslationDb :=
  rs.foldl (fun d r => (delete_translation d r).1) db

theorem delete_translation_fst (db : TranslationDb) (r : DeleteRequest) :
    (delete_translation db r).1 = db ∨
    ((delete_translation db r).1 =
        db.filter (fun t => !(t.1 == r.objectId && t.2 == r.languageCode)) ∧
      2 ≤ (available_languages db r.objectId).length) := by
  cases hf : db.find? (fun t => t.1 == r.objectId && t.2 == r.languageCode) with
  | none => simp only [delete_translation, hf]; exact Or.inl trivial
  | some x =>
    simp only [delete_translation, hf]
    split_ifs with h1 h2 h3 h4
    · exact Or.inl rfl
    · exact Or.inl rfl
    · exact Or.inl rfl
    · exact Or.inr ⟨rfl, by omega⟩
    · exact Or.inl rfl

theorem delete_translation_nodup (db : TranslationDb) (r : DeleteRequest)
    (h : db.Nodup) : (delete_translation db r).1.Nodup := by
  rcases delete_translation_fst db r with h1 | ⟨h1, _⟩ <;> rw [h1]
  · exact h
  · exact List.Nodup.filter _ h

theorem filter_remove_one_ne_nil (A : List (Nat × String)) (oid : Nat)
    (lc : String) (hA : ∀ x ∈ A, x.1 = oid) (hnd : A.Nodup)
    (hlen : 2 ≤ A.length) :
    A.filter (fun t => !(t.2 == lc)) ≠ [] := by
  intro hc
  rw [List.filter_eq_nil_iff] at hc
  obtain ⟨a, b, tl, rfl⟩ : ∃ a b tl, A = a :: b :: tl := by
    cases A with
    | nil => simp at hlen
    | cons a t =>
      cases t with
      | nil => simp at hlen
      | cons b tl => exact ⟨a, b, tl, rfl⟩
  have ha1 : a.1 = oid := hA a (by simp)
  have hb1 : b.1 = oid := hA b (by simp)
  have ha2 : a.2 = lc := by simpa using hc a (by simp)
  have hb2 : b.2 = lc := by simpa using hc b (by simp)
  have hab : a = b := Prod.ext (ha1.trans hb1.symm) (ha2.trans hb2.symm)
  exact (List.Nodup.not_mem hnd) (hab ▸ List.mem_cons_self b tl)

theorem available_languages_step (db : TranslationDb) (r : DeleteRequest)
    (m : Nat) (hnd : db.Nodup) (h : available_languages db m ≠ []) :
    available_languages (delete_translation db r).1 m ≠ [] := by
  rcases delete_translation_fst db r with h1 | ⟨h1, hlen⟩
  · rw [h1]; exact h
  · rw [h1]
    by_cases hm : m = r.objectId
    · subst hm
      rw [available_languages, List.filter_filter]
      have hpred : db.filter (fun a =>
            (a.1 == r.objectId) &&
              !(a.1 == r.objectId && a.2 == r.languageCode)) =
          (db.filter (fun t => t.1 == r.objectId)).filter
            (fun t => !(t.2 == r.languageCode)) := by
        rw [List.filter_filter]
        apply List.filter_congr
        intro a _
        cases hx : (a.1 == r.objectId) <;>
          cases hy : (a.2 == r.languageCode) <;> simp [hx, hy]
      rw [hpred]
      intro hc
      rw [List.map_eq_nil_iff] at hc
      refine filter_remove_one_ne_nil
        (db.filter (fun t => t.1 == r.objectId)) r.objectId r.languageCode
        ?_ (List.Nodup.filter _ hnd) ?_ hc
      · intro x hx
        exact beq_iff_eq.mp (List.mem_filter.mp hx).2
      · have hlm : (available_languages db r.objectId).length =
            (db.filter (fun t => t.1 == r.objectId)).length := by
          rw [available_languages, List.length_map]
        omega
    · rw [available_languages, List.filter_filter]
      have hpred : db.filter (fun a =>
            (a.1 == m) && !(a.1 == r.objectId && a.2 == r.languageCode)) =
          db.filter (fun t => t.1 == m) := by
        apply List.filter_congr
        intro a _
        cases hx : (a.1 == m)
        · simp [hx]
        · have hno : (a.1 == r.objectId) = false := by
            rw [beq_eq_false_iff_ne]
            intro hc
            exact hm ((beq_iff_eq.mp hx).symm.trans hc)
          simp [hx, hno]
      rw [hpred]
      exact h

theorem run_delete_requests_preserves (rs : List DeleteRequest)
    (db : TranslationDb) (m : Nat) (hnd : db.Nodup)
    (h : available_languages db m ≠ []) :
    available_languages (run_delete_requests db rs) m ≠ [] := by
  induction rs generalizing db with
  | nil => exact h
  | cons r tl ih =>
    have hrun : run_delete_requests db (r :: tl) =
        run_delete_requests (delete_translation db r).1 tl := rfl
    rw [hrun]
    exact ih _ (delete_translation_nodup db r hnd)
      (available_languages_step db r m hnd h)

theorem delete_translation_not_allowed (db : TranslationDb)
    (r : DeleteRequest)
    (hfound : (db.find?
      (fun t => t.1 == r.objectId && t.2 == r.languageCode)).isSome)
    (hperm : r.hasDeletePerm = true)
    (hle : (available_languages db r.objectId).length ≤ 1) :
    delete_translation db r = (db, DeleteOutcome.notAllowedPage) := by
  cases hf : db.find?
      (fun t => t.1 == r.objectId && t.2 == r.languageCode) with
  | none => rw [hf] at hfound; simp at hfound
  | some x =>
    simp only [delete_translation, hf]
    rw [if_neg (by simp [hperm]), if_pos hle]

theorem delete_translation_deleted_conditions (db : TranslationDb)
    (r : DeleteRequest)
    (h : (delete_translation db r).2 = DeleteOutcome.deletedRedirect) :
    2 ≤ (available_languages db r.objectId).length ∧
    r.hasDeletePerm = true ∧ r.permsNeeded = false ∧ r.isPost = true := by
  cases hf : db.find?
      (fun t => t.1 == r.objectId && t.2 == r.languageCode) with
  | none => simp [delete_translation, hf] at h
  | some x =>
    simp only [delete_translation, hf] at h
    split_ifs at h with h1 h2 h3 h4
    refine ⟨by omega, ?_, ?_, h3⟩
    · simpa using h1
    · simpa using h4

/-- C8: `delete_translation` never deletes the last remaining translation:
a run of any sequence of delete requests keeps every object that had a
translation with at least one; a request whose master has at most one
available language gets the deletion-not-allowed page with the database
untouched; and a deletion is performed only when the master has two or
more available languages, the user has delete permission, no extra
permissions are lacking, and the request is a confirming POST. -/
theorem delete_translation_never_deletes_last
    (db : TranslationDb) (rs : List DeleteRequest) (m : Nat)
    (r : DeleteRequest) (hnd : db.Nodup) :
    (available_languages db m ≠ [] →
      available_languages (run_delete_requests db rs) m ≠ []) ∧
    ((db.find?
        (fun t => t.1 == r.objectId && t.2 == r.languageCode)).isSome →
      r.hasDeletePerm = true →
      (available_languages db r.objectId).length ≤ 1 →
      delete_translation db r = (db, DeleteOutcome.notAllowedPage)) ∧
    ((delete_translation db r).2 = DeleteOutcome.deletedRedirect →
      2 ≤ (available_languages db r.objectId).length ∧
      r.hasDeletePerm = true ∧ r.permsNeeded = false ∧ r.isPost = true) :=
  ⟨fun h => run_delete_requests_preserves rs db m hnd h,
   fun hf hp hl => delete_translation_not_allowed db r hf hp hl,
   fun h => delete_translation_deleted_conditions db r h⟩

/-- Witness for C8: a POST asking to delete the only translation of
object 1 is answered with the deletion-not-allowed page and the
translation survives. -/
theorem delete_translation_never_deletes_last_witness :
    available_languages
        (run_delete_requests [(1, "en")] [⟨1, "en", true, false, true⟩])
        1 ≠ [] ∧
    delete_translation [(1, "en")] ⟨1, "en", true, false, true⟩ =
      ([(1, "en")], DeleteOutcome.notAllowedPage) := by
  have h := delete_translation_never_deletes_last [(1, "en")]
    [⟨1, "en", true, false, true⟩] 1 ⟨1, "en", true, false, true⟩
    (by decide)
  exact ⟨h.1 (by decide), h.2.1 (by decide) rfl (by decide)⟩

/-! ## `TranslatableAdmin.get_object` -/

/-- A row of the untranslated (master) table. -/
structure UntransObject where
  pk : Nat
deriving DecidableEq, Repr

/-- The fresh translation stub `get_object` attaches:
`new_translation.language_code = self._language(request)` and
`new_translation.master = obj`. -/
structure TranslationStub where
  language_code : String
  masterPk : Nat
deriving DecidableEq, Repr

/-- What `get_object` hands back: the object, together with the fresh
stub stored in the translations cache when one was created. -/
structure GetObjectResult where
  obj : UntransObject
  newTranslation : Option TranslationStub
deriving DecidableEq, Repr

/-- `TranslatableAdmin.get_object`: first the inherited lookup; when that
finds nothing, parse the pk with `model._meta.pk.to_python` (a
`ValidationError` is `none`), fetch from the untranslated queryset
(`DoesNotExist` is `none`), and attach a fresh unsaved translation stub
for the request's language. -/
def get_object (base : String → Option UntransObject)
    (toPython : String → Option Nat) (untranslated : List UntransObject)
    (language : String) (object_id : String) : Option GetObjectResult :=
  match base object_id with
  | some o => some ⟨o, none⟩
  | none =>
    match toPython object_id with
    | none => none
    | some pk =>
      match untranslated.find? (fun o => o.pk == pk) with
      | none => none
      | some o => some ⟨o, some ⟨language, o.pk⟩⟩

/-- C9: when the inherited lookup finds nothing but the pk is valid and
the object exists in the untranslated queryset, `get_object` does not
return `None`: it returns the object with a fresh translation stub whose
`language_code` is the request's language and whose master is the object;
and `None` is returned exactly when the inherited lookup failed and the
pk fails validation or no object with that key exists. -/
theorem get_object_untranslated_fallback
    (base : String → Option UntransObject)
    (toPython : String → Option Nat) (untranslated : List UntransObject)
    (language : String) (object_id : String) (pk : Nat) (o : UntransObject)
    (hbase : base object_id = none)
    (hparse : toPython object_id = some pk)
    (hfound : untranslated.find? (fun x => x.pk == pk) = some o) :
    (get_object base toPython untranslated language object_id =
      some ⟨o, some ⟨language, o.pk⟩⟩) ∧
    (∀ b' t' u' l' oid',
      get_object b' t' u' l' oid' = none ↔
        b' oid' = none ∧
        (t' oid' = none ∨
          ∃ p, t' oid' = some p ∧
            u'.find? (fun x => x.pk == p) = none)) := by
  constructor
  · simp [get_object, hbase, hparse, hfound]
  · intro b' t' u' l' oid'
    cases hb : b' oid' with
    | some q => simp [get_object, hb]
    | none =>
      cases ht : t' oid' with
      | none => simp [get_object, hb, ht]
      | some p =>
        cases hu : u'.find? (fun x => x.pk == p) with
        | none =>
          simp [get_object, hb, ht, hu]
          exact fun x hx => by simpa using List.find?_eq_none.mp hu x hx
        | some q =>
          simp [get_object, hb, ht, hu]
          exact ⟨q, List.mem_of_find?_eq_some hu,
            by simpa using List.find?_some hu⟩

/-- Witness for C9: object 4 exists untranslated, the inherited lookup
missed it, and it comes back with a fresh stub for language "de". -/
theorem get_object_untranslated_fallback_witness :
    get_object (fun _ => none) (fun s => if s = "4" then some 4 else none)
        [⟨3⟩, ⟨4⟩] "de" "4" = some ⟨⟨4⟩, some ⟨"de", 4⟩⟩ :=
  (get_object_untranslated_fallback (fun _ => none)
    (fun s => if s = "4" then some 4 else none) [⟨3⟩, ⟨4⟩] "de" "4" 4 ⟨4⟩
    rfl (by decide) (by decide)).1

/-! ## `TransortableModel` (`transortable/models.py`) -/

/-- The Django model meta options the claim is about. -/
structure MetaOptions where
  abstract : Bool
  ordering : List String
deriving DecidableEq, Repr

/-- The bases of `TransortableModel`, in declaration order:
`class TransortableModel(TranslatableModel, SortableModel)`. -/
def transortable_model_bases : List String :=
  ["TranslatableModel", "SortableModel"]

/-- `TransortableModel.Meta`: `class Meta(SortableModel.Meta)` with only
`abstract = True` set, so every other option — in particular `ordering` —
is inherited from the sortable model's `Meta`. -/
def transortable_model_meta (sortableMeta : MetaOptions) : MetaOptions :=
  { sortableMeta with abstract := true }

/-- C10: `TransortableModel` derives from both the translation layer's
`TranslatableModel` and the sortable layer's `Sortable` model, and its
`Meta` subclasses the sortable model's `Meta`, keeping its `ordering`
while forcing `abstract = True` (so no database table is created for
`TransortableModel` itself). -/
theorem transortable_model_structure (sortableMeta : MetaOptions) :
    transortable_model_bases = ["TranslatableModel", "SortableModel"] ∧
    (transortable_model_meta sortableMeta).abstract = true ∧
    (transortable_model_meta sortableMeta).ordering =
      sortableMeta.ordering :=
  ⟨rfl, rfl, rfl⟩
